import Mathlib

/-!
Verification of the LuminaLaTeX rendering pipeline.

The program under study is the renderer of the `latexvidec` repository.
Its core is two functions:

* `LatexRenderer` (src/src/App.tsx, lines 368-390) builds an HTML string
  from the raw source text by a fixed chain of nine global regex
  substitutions: the structural commands (section, subsection, textbf,
  textit, underline, itemize open and close, item) and the blank-line
  substitution, in that order.  The result is assigned to the live
  element and then handed to `renderMathInElement`.
* `renderMathInElement` (src/src/App.tsx, lines 392-420) runs four math
  delimiter passes over that HTML string, in the fixed order
  block-bracket, block-dollar, inline-paren, inline-dollar, replacing
  each lazily matched region by the output of the external typesetting
  backend (katex.renderToString) wrapped in a div or span, falling back
  to an error span (bracket pass) or to the bare content (other passes)
  when the backend throws.

The repository carries a second variant of the same renderer
(src/unnamed/part_000, lines 165-237); it differs in the subsection rule
(its replacement string refers to a second capture group that does not
exist, so the host language inserts the two characters dollar-two
literally) and in having only the block-bracket and inline-paren math
passes.

The embedding below works on `List Char`.  The JavaScript global regex
replace for the patterns used by the program (a literal opening, a lazy
body, a literal closing) is modelled by `replaceAll`: scan left to
right, at each position try the literal opening, then find the nearest
closing (the lazy shortest match), emit the replacement and continue
after the match, otherwise keep the character and move on one position.
The dot of the host regex syntax does not cross line terminators, hence
the `nl` flag; the bracketed any-character class used by the math
patterns does.  The backend is an abstract function
`List Char → Bool → Option (List Char)`; `none` models a thrown
exception, caught by the renderer.  Reading the freshly assigned
`innerHTML` back is modelled as the identity on the assigned string.
-/

namespace LatexVidec

/-- A character on which the dot of the host regex engine does not match:
newline, carriage return, line separator, paragraph separator. -/
def isLineTerm (c : Char) : Bool :=
  c == '\n' || c == '\r' || c == '\u2028' || c == '\u2029'

/-- `leadsWith p l` is true when `p` is an initial segment of `l`. -/
def leadsWith : List Char → List Char → Bool
  | [], _ => true
  | _ :: _, [] => false
  | p :: ps, c :: cs => p == c && leadsWith ps cs

/-- Scan for the nearest occurrence of the closing delimiter `cl`
(the lazy shortest match).  Returns the body consumed before the closing
and the remainder after it, or `none` when no closing is reachable;
when `nl` is false the body may not cross a line terminator, matching
the dot of the host regex engine. -/
def findClose (nl : Bool) (cl : List Char) : List Char → Option (List Char × List Char)
  | [] => if leadsWith cl [] then some ([], []) else none
  | c :: rest =>
    if leadsWith cl (c :: rest) then some ([], (c :: rest).drop cl.length)
    else if !nl && isLineTerm c then none
    else
      match findClose nl cl rest with
      | some (body, after) => some (c :: body, after)
      | none => none

/-- Fuel-driven engine of the global replace: the fuel starts at the
length of the input and drops by one while the input loses at least one
character per step, so it never runs out. -/
def goRep (o : Char) (os : List Char) (nl : Bool) (cl : List Char)
    (repl : List Char → List Char) : Nat → List Char → List Char
  | 0, l => l
  | _ + 1, [] => []
  | n + 1, c :: rest =>
    if leadsWith (o :: os) (c :: rest) then
      match findClose nl cl (rest.drop os.length) with
      | some (body, after) => repl body ++ goRep o os nl cl repl n after
      | none => c :: goRep o os nl cl repl n rest
    else c :: goRep o os nl cl repl n rest

/-- One global regex replace of the shape used throughout the program:
literal opening `o :: os`, lazy body (line-terminator-free when `nl` is
false), literal closing `cl` (empty for the purely literal rules), each
match replaced by `repl body`.  Matches are found left to right and the
scan resumes after each replacement, as the host engine does. -/
def replaceAll (o : Char) (os : List Char) (nl : Bool) (cl : List Char)
    (repl : List Char → List Char) (l : List Char) : List Char :=
  goRep o os nl cl repl l.length l

/-- A piece of the scanned text: an untouched character, or the captured
body of one matched region. -/
inductive Chunk where
  | lit (c : Char)
  | reg (body : List Char)
deriving DecidableEq

/-- Fuel-driven engine of `decompose`, mirroring `goRep` step by step. -/
def goDec (o : Char) (os : List Char) (nl : Bool) (cl : List Char) :
    Nat → List Char → List Chunk
  | 0, l => l.map Chunk.lit
  | _ + 1, [] => []
  | n + 1, c :: rest =>
    if leadsWith (o :: os) (c :: rest) then
      match findClose nl cl (rest.drop os.length) with
      | some (body, after) => Chunk.reg body :: goDec o os nl cl n after
      | none => Chunk.lit c :: goDec o os nl cl n rest
    else Chunk.lit c :: goDec o os nl cl n rest

/-- The decomposition of the input induced by one replace pass: the same
scan as `replaceAll`, but recording which characters stay literal and
which spans are consumed as regions. -/
def decompose (o : Char) (os : List Char) (nl : Bool) (cl : List Char)
    (l : List Char) : List Chunk :=
  goDec o os nl cl l.length l

/-- Rebuild a pass output from a decomposition. -/
def renderChunks (repl : List Char → List Char) : List Chunk → List Char
  | [] => []
  | Chunk.lit c :: rest => c :: renderChunks repl rest
  | Chunk.reg b :: rest => repl b ++ renderChunks repl rest

/-- Rebuild a pass input from a decomposition, reinserting the
delimiters around each region. -/
def reassembleChunks (op cl : List Char) : List Chunk → List Char
  | [] => []
  | Chunk.lit c :: rest => c :: reassembleChunks op cl rest
  | Chunk.reg b :: rest => op ++ b ++ cl ++ reassembleChunks op cl rest

/-- The bodies of the regions of a decomposition, in order: exactly the
strings a pass hands to its replacement, hence to the backend. -/
def regBodies : List Chunk → List (List Char)
  | [] => []
  | Chunk.lit _ :: rest => regBodies rest
  | Chunk.reg b :: rest => b :: regBodies rest

/-- `occursIn p l` is true when `p` appears as a contiguous substring of
`l`. -/
def occursIn (p : List Char) : List Char → Bool
  | [] => leadsWith p []
  | c :: rest => leadsWith p (c :: rest) || occursIn p rest

/-! ## The structural markup translator (LatexRenderer, App.tsx 373-382)

One definition per regex substitution, in the source's order. -/

/-- Substitution for the section command (App.tsx line 374). -/
def sectionPass (l : List Char) : List Char :=
  replaceAll '\\' ("section\x7b".data) false ['\x7d']
    (fun b => ("<h1 class=\"latex-h1\">".data) ++ b ++ ("</h1>".data)) l

/-- Substitution for the subsection command (App.tsx line 375). -/
def subsectionPass (l : List Char) : List Char :=
  replaceAll '\\' ("subsection\x7b".data) false ['\x7d']
    (fun b => ("<h2 class=\"latex-h2\">".data) ++ b ++ ("</h2>".data)) l

/-- Substitution for the bold command (App.tsx line 376). -/
def textbfPass (l : List Char) : List Char :=
  replaceAll '\\' ("textbf\x7b".data) false ['\x7d']
    (fun b => ("<strong>".data) ++ b ++ ("</strong>".data)) l

/-- Substitution for the italic command (App.tsx line 377). -/
def textitPass (l : List Char) : List Char :=
  replaceAll '\\' ("textit\x7b".data) false ['\x7d']
    (fun b => ("<em>".data) ++ b ++ ("</em>".data)) l

/-- Substitution for the underline command (App.tsx line 378). -/
def underlinePass (l : List Char) : List Char :=
  replaceAll '\\' ("underline\x7b".data) false ['\x7d']
    (fun b => ("<u>".data) ++ b ++ ("</u>".data)) l

/-- Substitution for the itemize opening (App.tsx line 379), a purely
literal rule. -/
def beginItemizePass (l : List Char) : List Char :=
  replaceAll '\\' ("begin\x7bitemize\x7d".data) false []
    (fun _ => ("<ul class=\"latex-ul\">".data)) l

/-- Substitution for the itemize closing (App.tsx line 380). -/
def endItemizePass (l : List Char) : List Char :=
  replaceAll '\\' ("end\x7bitemize\x7d".data) false []
    (fun _ => ("</ul>".data)) l

/-- Substitution for the item command (App.tsx line 381).  The source
pattern ends in a lazy group with nothing after it, so the group always
captures the empty string: the rule is equivalent to a literal
replacement of the item keyword and its trailing space by an empty
list-item element. -/
def itemPass (l : List Char) : List Char :=
  replaceAll '\\' ("item ".data) false []
    (fun _ => ("<li></li>".data)) l

/-- Substitution of a blank line by two break elements
(App.tsx line 382). -/
def newlinePass (l : List Char) : List Char :=
  replaceAll '\n' ['\n'] false []
    (fun _ => ("<br/><br/>".data)) l

/-- The full structural chain of LatexRenderer (App.tsx 373-382), in the
source's order. -/
def structuralPass (l : List Char) : List Char :=
  newlinePass (itemPass (endItemizePass (beginItemizePass
    (underlinePass (textitPass (textbfPass (subsectionPass (sectionPass l))))))))

/-! ## The math delimiter resolver (renderMathInElement, App.tsx 392-420) -/

/-- The four delimiter styles, in the order the passes run. -/
inductive DelimStyle where
  | blockBracket
  | blockDollar
  | inlineParen
  | inlineDollar
deriving DecidableEq

/-- First character of the opening delimiter. -/
def openHead : DelimStyle → Char
  | DelimStyle.blockBracket => '\\'
  | DelimStyle.blockDollar => '$'
  | DelimStyle.inlineParen => '\\'
  | DelimStyle.inlineDollar => '$'

/-- Remaining characters of the opening delimiter. -/
def openTail : DelimStyle → List Char
  | DelimStyle.blockBracket => ['[']
  | DelimStyle.blockDollar => ['$']
  | DelimStyle.inlineParen => ['(']
  | DelimStyle.inlineDollar => []

/-- The closing delimiter. -/
def closeOf : DelimStyle → List Char
  | DelimStyle.blockBracket => ['\\', ']']
  | DelimStyle.blockDollar => ['$', '$']
  | DelimStyle.inlineParen => ['\\', ')']
  | DelimStyle.inlineDollar => ['$']

/-- Display mode handed to the backend for each style. -/
def displayOf : DelimStyle → Bool
  | DelimStyle.blockBracket => true
  | DelimStyle.blockDollar => true
  | DelimStyle.inlineParen => false
  | DelimStyle.inlineDollar => false

/-- The abstract math typesetting backend: content and display mode in,
either typeset markup out or `none` for a thrown exception. -/
def Backend : Type :=
  List Char → Bool → Option (List Char)

/-- What one pass substitutes for a matched region (App.tsx 395-417):
on success the backend output wrapped in a block div or inline span; on
a thrown exception the bracket pass emits a red error span around the
raw content while the other three passes emit the bare content. -/
def mathRepl (st : DelimStyle) (K : Backend) (body : List Char) : List Char :=
  match K body (displayOf st) with
  | some out =>
    if displayOf st then ("<div class=\"math-block\">".data) ++ out ++ ("</div>".data)
    else ("<span class=\"math-inline\">".data) ++ out ++ ("</span>".data)
  | none =>
    match st with
    | DelimStyle.blockBracket =>
      ("<span style=\"color: red\">".data) ++ body ++ ("</span>".data)
    | _ => body

/-- One math delimiter pass. -/
def mathPass (st : DelimStyle) (K : Backend) (l : List Char) : List Char :=
  replaceAll (openHead st) (openTail st) true (closeOf st) (mathRepl st K) l

/-- The decomposition induced by one math pass; its region bodies are
exactly the strings the pass hands to the backend. -/
def mathDecomp (st : DelimStyle) (l : List Char) : List Chunk :=
  decompose (openHead st) (openTail st) true (closeOf st) l

/-- renderMathInElement (App.tsx 392-420): the four passes in the fixed
source order block-bracket, block-dollar, inline-paren, inline-dollar,
each rescanning the whole string left by the previous one. -/
def renderMathInElement (K : Backend) (l : List Char) : List Char :=
  mathPass DelimStyle.inlineDollar K
    (mathPass DelimStyle.inlineParen K
      (mathPass DelimStyle.blockDollar K
        (mathPass DelimStyle.blockBracket K l)))

/-- The whole render pipeline of LatexRenderer: structural substitution,
assignment to the element, then math resolution over the assigned
string. -/
def renderPipeline (K : Backend) (l : List Char) : List Char :=
  renderMathInElement K (structuralPass l)

/-- One run of the LatexRenderer effect against a display surface whose
previous contents are `dom`: the effect assigns the freshly built HTML,
overwriting whatever was there, so the result ignores `dom`. -/
def applyRender (K : Backend) (content : List Char) (_dom : List Char) : List Char :=
  renderPipeline K content

/-! ## The part_000 variant of the renderer (src/unnamed/part_000) -/

/-- Substitution for the subsection command in the part_000 variant
(part_000 line 177).  Its replacement string names a second capture
group while the pattern has only one, so the host language inserts the
dollar-two characters literally; the captured argument is dropped. -/
def subsectionPass0 (l : List Char) : List Char :=
  replaceAll '\\' ("subsection\x7b".data) false ['\x7d']
    (fun _ => ("<h2 class=\"latex-h2\">$2</h2>".data)) l

/-- The structural chain of the part_000 variant (part_000 175-184):
identical to the main variant except for the subsection rule. -/
def structuralPass0 (l : List Char) : List Char :=
  newlinePass (itemPass (endItemizePass (beginItemizePass
    (underlinePass (textitPass (textbfPass (subsectionPass0 (sectionPass l))))))))

/-- Block-bracket replacement of the part_000 variant (part_000
218-224): error span carries the math-error class. -/
def mathReplB0 (K : Backend) (body : List Char) : List Char :=
  match K body true with
  | some out => ("<div class=\"math-block\">".data) ++ out ++ ("</div>".data)
  | none => ("<span class=\"math-error\">".data) ++ body ++ ("</span>".data)

/-- Inline-paren replacement of the part_000 variant (part_000
228-234). -/
def mathReplP0 (K : Backend) (body : List Char) : List Char :=
  match K body false with
  | some out => ("<span class=\"math-inline\">".data) ++ out ++ ("</span>".data)
  | none => ("<span class=\"math-error\">".data) ++ body ++ ("</span>".data)

/-- renderMathInElement of the part_000 variant (part_000 213-237): only
the block-bracket and inline-paren passes exist. -/
def renderMathInElement0 (K : Backend) (l : List Char) : List Char :=
  replaceAll '\\' ['('] true ['\\', ')'] (mathReplP0 K)
    (replaceAll '\\' ['['] true ['\\', ']'] (mathReplB0 K) l)

/-- The render pipeline of the part_000 variant. -/
def renderPipeline0 (K : Backend) (l : List Char) : List Char :=
  renderMathInElement0 K (structuralPass0 l)

/-- A text free of every pattern the structural translator rewrites: no
structural command and no blank line.  On such a text every one of the
nine structural substitutions is the identity. -/
def structFree (l : List Char) : Prop :=
  occursIn (("\\section\x7b".data)) l = false ∧
  occursIn (("\\subsection\x7b".data)) l = false ∧
  occursIn (("\\textbf\x7b".data)) l = false ∧
  occursIn (("\\textit\x7b".data)) l = false ∧
  occursIn (("\\underline\x7b".data)) l = false ∧
  occursIn (("\\begin\x7bitemize\x7d".data)) l = false ∧
  occursIn (("\\end\x7bitemize\x7d".data)) l = false ∧
  occursIn (("\\item ".data)) l = false ∧
  occursIn (("\n\n".data)) l = false

/-! ## Basic facts about the scanner -/

theorem leadsWith_nil {cl : List Char} (h : leadsWith cl [] = true) : cl = [] := by
  cases cl with
  | nil => rfl
  | cons x xs => simp [leadsWith] at h

theorem leadsWith_drop : ∀ (p l : List Char), leadsWith p l = true → l = p ++ l.drop p.length := by
  intro p
  induction p with
  | nil => intro l _; simp
  | cons x ps ih =>
    intro l h
    cases l with
    | nil => simp [leadsWith] at h
    | cons c cs =>
      simp only [leadsWith, Bool.and_eq_true, beq_iff_eq] at h
      obtain ⟨rfl, h2⟩ := h
      rw [List.length_cons, List.drop_succ_cons, List.cons_append]
      exact congrArg (x :: ·) (ih cs h2)

theorem findClose_nil_cl (nl : Bool) (l : List Char) : findClose nl [] l = some ([], l) := by
  cases l with
  | nil => simp [findClose, leadsWith]
  | cons c rest => simp [findClose, leadsWith]

theorem findClose_length_le {nl : Bool} {cl : List Char} :
    ∀ {l body after : List Char}, findClose nl cl l = some (body, after) →
      after.length ≤ l.length := by
  intro l
  induction l with
  | nil =>
    intro body after h
    by_cases h0 : leadsWith cl [] = true
    · simp [findClose, h0] at h
      obtain ⟨hb, ha⟩ := h
      subst ha
      simp
    · simp [findClose, h0] at h
  | cons c rest ih =>
    intro body after h
    by_cases h1 : leadsWith cl (c :: rest) = true
    · simp [findClose, h1] at h
      obtain ⟨hb, ha⟩ := h
      rw [← ha, List.length_drop]
      omega
    · by_cases h2 : (!nl && isLineTerm c) = true
      · simp [findClose, h1, h2] at h
      · cases hfc : findClose nl cl rest with
        | none => simp [findClose, h1, h2, hfc] at h
        | some p =>
          obtain ⟨b', a'⟩ := p
          simp [findClose, h1, h2, hfc] at h
          obtain ⟨hb, ha⟩ := h
          have := ih hfc
          rw [← ha, List.length_cons]
          omega

theorem findClose_sound {nl : Bool} {cl : List Char} :
    ∀ {l body after : List Char}, findClose nl cl l = some (body, after) →
      l = body ++ cl ++ after := by
  intro l
  induction l with
  | nil =>
    intro body after h
    by_cases h0 : leadsWith cl [] = true
    · simp [findClose, h0] at h
      obtain ⟨hb, ha⟩ := h
      subst hb; subst ha
      simp [leadsWith_nil h0]
    · simp [findClose, h0] at h
  | cons c rest ih =>
    intro body after h
    by_cases h1 : leadsWith cl (c :: rest) = true
    · simp [findClose, h1] at h
      obtain ⟨hb, ha⟩ := h
      subst hb
      rw [← ha]
      simpa using leadsWith_drop cl (c :: rest) h1
    · by_cases h2 : (!nl && isLineTerm c) = true
      · simp [findClose, h1, h2] at h
      · cases hfc : findClose nl cl rest with
        | none => simp [findClose, h1, h2, hfc] at h
        | some p =>
          obtain ⟨b', a'⟩ := p
          simp [findClose, h1, h2, hfc] at h
          obtain ⟨hb, ha⟩ := h
          rw [← hb, ← ha]
          have := congrArg (c :: ·) (ih hfc)
          simpa [List.cons_append, List.append_assoc] using this

theorem findClose_append (d : Char) (ds b c : List Char) (hd : d ∉ b)
    (hpre : leadsWith ds c = true) :
    findClose true (d :: ds) (b ++ d :: c) = some (b, c.drop ds.length) := by
  induction b with
  | nil =>
    have h1 : leadsWith (d :: ds) (d :: c) = true := by simp [leadsWith, hpre]
    simp [findClose, h1, List.drop_succ_cons]
  | cons x b' ih =>
    have hxd : (d == x) = false := by
      have : d ≠ x := fun he => hd (by simp [he])
      simpa using this
    have h1 : leadsWith (d :: ds) (x :: (b' ++ d :: c)) = false := by
      simp [leadsWith, hxd]
    have ih' := ih (fun hm => hd (List.mem_cons_of_mem _ hm))
    simp [findClose, h1, ih']

/-! ## The replace engine is fuel-insensitive, and its step equations -/

theorem goRep_fuel (o : Char) (os : List Char) (nl : Bool) (cl : List Char)
    (repl : List Char → List Char) :
    ∀ n m (l : List Char), l.length ≤ n → l.length ≤ m →
      goRep o os nl cl repl n l = goRep o os nl cl repl m l := by
  intro n
  induction n with
  | zero =>
    intro m l hn _
    have hl : l = [] := List.length_eq_zero.mp (Nat.le_zero.mp hn)
    subst hl
    cases m <;> rfl
  | succ n ih =>
    intro m l hn hm
    cases l with
    | nil => cases m <;> rfl
    | cons c rest =>
      cases m with
      | zero => simp at hm
      | succ k =>
        have hrn : rest.length ≤ n := by simp [List.length_cons] at hn; omega
        have hrk : rest.length ≤ k := by simp [List.length_cons] at hm; omega
        by_cases hlw : leadsWith (o :: os) (c :: rest) = true
        · cases hfc : findClose nl cl (rest.drop os.length) with
          | none => simp [goRep, hlw, hfc, ih k rest hrn hrk]
          | some p =>
            obtain ⟨body, after⟩ := p
            have hle : after.length ≤ rest.length := by
              have := findClose_length_le hfc
              rw [List.length_drop] at this
              omega
            simp [goRep, hlw, hfc, ih k after (le_trans hle hrn) (le_trans hle hrk)]
        · simp [goRep, hlw, ih k rest hrn hrk]

theorem ra_cons_pos {o : Char} {os : List Char} {nl : Bool} {cl : List Char}
    {repl : List Char → List Char} {c : Char} {rest body after : List Char}
    (h1 : leadsWith (o :: os) (c :: rest) = true)
    (h2 : findClose nl cl (rest.drop os.length) = some (body, after)) :
    replaceAll o os nl cl repl (c :: rest) = repl body ++ replaceAll o os nl cl repl after := by
  have hle : after.length ≤ rest.length := by
    have := findClose_length_le h2
    rw [List.length_drop] at this
    omega
  unfold replaceAll
  simp only [List.length_cons, goRep, h1, h2, if_true]
  exact congrArg (repl body ++ ·) (goRep_fuel o os nl cl repl rest.length after.length after hle le_rfl)

theorem ra_cons_none {o : Char} {os : List Char} {nl : Bool} {cl : List Char}
    {repl : List Char → List Char} {c : Char} {rest : List Char}
    (h2 : findClose nl cl (rest.drop os.length) = none) :
    replaceAll o os nl cl repl (c :: rest) = c :: replaceAll o os nl cl repl rest := by
  unfold replaceAll
  by_cases hlw : leadsWith (o :: os) (c :: rest) = true <;>
    simp [List.length_cons, goRep, hlw, h2]

theorem ra_cons_neg {o : Char} {os : List Char} {nl : Bool} {cl : List Char}
    {repl : List Char → List Char} {c : Char} {rest : List Char}
    (h1 : leadsWith (o :: os) (c :: rest) = false) :
    replaceAll o os nl cl repl (c :: rest) = c :: replaceAll o os nl cl repl rest := by
  unfold replaceAll
  simp [List.length_cons, goRep, h1]

theorem ra_not_mem {o : Char} {os : List Char} {nl : Bool} {cl : List Char}
    {repl : List Char → List Char} {l : List Char} (h : o ∉ l) :
    replaceAll o os nl cl repl l = l := by
  induction l with
  | nil => rfl
  | cons c rest ih =>
    have hoc : (o == c) = false := by
      have : o ≠ c := fun he => h (by simp [he])
      simpa using this
    have hlw : leadsWith (o :: os) (c :: rest) = false := by simp [leadsWith, hoc]
    rw [ra_cons_neg hlw, ih (fun hm => h (List.mem_cons_of_mem _ hm))]

theorem ra_append {o : Char} {os : List Char} {nl : Bool} {cl : List Char}
    {repl : List Char → List Char} {a : List Char} (l : List Char) (h : o ∉ a) :
    replaceAll o os nl cl repl (a ++ l) = a ++ replaceAll o os nl cl repl l := by
  induction a with
  | nil => simp
  | cons x a' ih =>
    have hox : (o == x) = false := by
      have : o ≠ x := fun he => h (by simp [he])
      simpa using this
    have hlw : leadsWith (o :: os) (x :: (a' ++ l)) = false := by simp [leadsWith, hox]
    rw [List.cons_append, ra_cons_neg hlw, ih (fun hm => h (List.mem_cons_of_mem _ hm))]
    simp

/-! ## The decomposition mirrors the replace engine -/

theorem goDec_fuel (o : Char) (os : List Char) (nl : Bool) (cl : List Char) :
    ∀ n m (l : List Char), l.length ≤ n → l.length ≤ m →
      goDec o os nl cl n l = goDec o os nl cl m l := by
  intro n
  induction n with
  | zero =>
    intro m l hn _
    have hl : l = [] := List.length_eq_zero.mp (Nat.le_zero.mp hn)
    subst hl
    cases m <;> rfl
  | succ n ih =>
    intro m l hn hm
    cases l with
    | nil => cases m <;> rfl
    | cons c rest =>
      cases m with
      | zero => simp at hm
      | succ k =>
        have hrn : rest.length ≤ n := by simp [List.length_cons] at hn; omega
        have hrk : rest.length ≤ k := by simp [List.length_cons] at hm; omega
        by_cases hlw : leadsWith (o :: os) (c :: rest) = true
        · cases hfc : findClose nl cl (rest.drop os.length) with
          | none => simp [goDec, hlw, hfc, ih k rest hrn hrk]
          | some p =>
            obtain ⟨body, after⟩ := p
            have hle : after.length ≤ rest.length := by
              have := findClose_length_le hfc
              rw [List.length_drop] at this
              omega
            simp [goDec, hlw, hfc, ih k after (le_trans hle hrn) (le_trans hle hrk)]
        · simp [goDec, hlw, ih k rest hrn hrk]

theorem dec_cons_pos {o : Char} {os : List Char} {nl : Bool} {cl : List Char}
    {c : Char} {rest body after : List Char}
    (h1 : leadsWith (o :: os) (c :: rest) = true)
    (h2 : findClose nl cl (rest.drop os.length) = some (body, after)) :
    decompose o os nl cl (c :: rest) = Chunk.reg body :: decompose o os nl cl after := by
  have hle : after.length ≤ rest.length := by
    have := findClose_length_le h2
    rw [List.length_drop] at this
    omega
  unfold decompose
  simp only [List.length_cons, goDec, h1, h2, if_true]
  exact congrArg (Chunk.reg body :: ·) (goDec_fuel o os nl cl rest.length after.length after hle le_rfl)

theorem dec_cons_none {o : Char} {os : List Char} {nl : Bool} {cl : List Char}
    {c : Char} {rest : List Char}
    (h2 : findClose nl cl (rest.drop os.length) = none) :
    decompose o os nl cl (c :: rest) = Chunk.lit c :: decompose o os nl cl rest := by
  unfold decompose
  by_cases hlw : leadsWith (o :: os) (c :: rest) = true <;>
    simp [List.length_cons, goDec, hlw, h2]

theorem dec_cons_neg {o : Char} {os : List Char} {nl : Bool} {cl : List Char}
    {c : Char} {rest : List Char}
    (h1 : leadsWith (o :: os) (c :: rest) = false) :
    decompose o os nl cl (c :: rest) = Chunk.lit c :: decompose o os nl cl rest := by
  unfold decompose
  simp [List.length_cons, goDec, h1]

theorem ra_eq_chunks (o : Char) (os : List Char) (nl : Bool) (cl : List Char)
    (repl : List Char → List Char) :
    ∀ n (l : List Char), l.length ≤ n →
      replaceAll o os nl cl repl l = renderChunks repl (decompose o os nl cl l) := by
  intro n
  induction n with
  | zero =>
    intro l hn
    have hl : l = [] := List.length_eq_zero.mp (Nat.le_zero.mp hn)
    subst hl
    rfl
  | succ n ih =>
    intro l hn
    cases l with
    | nil => rfl
    | cons c rest =>
      have hrn : rest.length ≤ n := by simp [List.length_cons] at hn; omega
      by_cases hlw : leadsWith (o :: os) (c :: rest) = true
      · cases hfc : findClose nl cl (rest.drop os.length) with
        | none =>
          rw [ra_cons_none hfc, dec_cons_none hfc]
          simp [renderChunks, ih rest hrn]
        | some p =>
          obtain ⟨body, after⟩ := p
          have hle : after.length ≤ rest.length := by
            have := findClose_length_le hfc
            rw [List.length_drop] at this
            omega
          rw [ra_cons_pos hlw hfc, dec_cons_pos hlw hfc]
          simp [renderChunks, ih after (le_trans hle hrn)]
      · have hlw' : leadsWith (o :: os) (c :: rest) = false := by simpa using hlw
        rw [ra_cons_neg hlw', dec_cons_neg hlw']
        simp [renderChunks, ih rest hrn]

theorem dec_reassemble (o : Char) (os : List Char) (nl : Bool) (cl : List Char) :
    ∀ n (l : List Char), l.length ≤ n →
      reassembleChunks (o :: os) cl (decompose o os nl cl l) = l := by
  intro n
  induction n with
  | zero =>
    intro l hn
    have hl : l = [] := List.length_eq_zero.mp (Nat.le_zero.mp hn)
    subst hl
    rfl
  | succ n ih =>
    intro l hn
    cases l with
    | nil => rfl
    | cons c rest =>
      have hrn : rest.length ≤ n := by simp [List.length_cons] at hn; omega
      by_cases hlw : leadsWith (o :: os) (c :: rest) = true
      · cases hfc : findClose nl cl (rest.drop os.length) with
        | none =>
          rw [dec_cons_none hfc]
          simp [reassembleChunks, ih rest hrn]
        | some p =>
          obtain ⟨body, after⟩ := p
          have hle : after.length ≤ rest.length := by
            have := findClose_length_le hfc
            rw [List.length_drop] at this
            omega
          rw [dec_cons_pos hlw hfc]
          have hsplit : c :: rest = (o :: os) ++ rest.drop os.length := by
            have := leadsWith_drop (o :: os) (c :: rest) hlw
            simpa [List.length_cons, List.drop_succ_cons] using this
          have hrest : rest.drop os.length = body ++ cl ++ after := findClose_sound hfc
          simp only [reassembleChunks, ih after (le_trans hle hrn)]
          rw [hsplit, hrest]
          simp [List.append_assoc]
      · have hlw' : leadsWith (o :: os) (c :: rest) = false := by simpa using hlw
        rw [dec_cons_neg hlw']
        simp [reassembleChunks, ih rest hrn]

/-! ## Helpers at the level of the program's passes -/

theorem not_mem_app {c : Char} {a b : List Char} (ha : c ∉ a) (hb : c ∉ b) :
    c ∉ a ++ b := by
  intro h
  rcases List.mem_append.mp h with h' | h'
  · exact ha h'
  · exact hb h'

theorem leadsWith_append_self (p t : List Char) : leadsWith p (p ++ t) = true := by
  induction p with
  | nil => simp [leadsWith]
  | cons x ps ih => simp [leadsWith, ih]

theorem drop_len_append (p t : List Char) : (p ++ t).drop p.length = t := by
  induction p with
  | nil => simp
  | cons x ps ih => simp [ih]

/-- A math pass leaves any string without its opening head character
unchanged. -/
theorem mathPass_skip (st : DelimStyle) (K : Backend) {l : List Char}
    (h : openHead st ∉ l) : mathPass st K l = l :=
  ra_not_mem h

/-- The block-bracket pass on a text whose only backslashes are one
delimited region: the region is substituted, the rest is untouched. -/
theorem bb_resolve (K : Backend) {p b s : List Char}
    (hp : '\\' ∉ p) (hb : '\\' ∉ b) (hs : '\\' ∉ s) :
    mathPass DelimStyle.blockBracket K (p ++ '\\' :: '[' :: (b ++ '\\' :: ']' :: s)) =
      p ++ (mathRepl DelimStyle.blockBracket K b ++ s) := by
  unfold mathPass
  simp only [openHead, openTail, closeOf]
  rw [ra_append _ hp]
  have h1 : leadsWith ('\\' :: ['[']) ('\\' :: '[' :: (b ++ '\\' :: ']' :: s)) = true := by
    simp [leadsWith]
  have h2 : findClose true ['\\', ']'] (('[' :: (b ++ '\\' :: ']' :: s)).drop
      (['['] : List Char).length) = some (b, s) := by
    have := findClose_append '\\' [']'] b (']' :: s) hb (by simp [leadsWith])
    simpa using this
  rw [ra_cons_pos h1 h2, ra_not_mem hs]

/-- The block-dollar pass on a text whose only dollars are one delimited
region: the region is substituted, the rest is untouched. -/
theorem dd_resolve (K : Backend) {p b s : List Char}
    (hp : '$' ∉ p) (hb : '$' ∉ b) (hs : '$' ∉ s) :
    mathPass DelimStyle.blockDollar K (p ++ '$' :: '$' :: (b ++ '$' :: '$' :: s)) =
      p ++ (mathRepl DelimStyle.blockDollar K b ++ s) := by
  unfold mathPass
  simp only [openHead, openTail, closeOf]
  rw [ra_append _ hp]
  have h1 : leadsWith ('$' :: ['$']) ('$' :: '$' :: (b ++ '$' :: '$' :: s)) = true := by
    simp [leadsWith]
  have h2 : findClose true ['$', '$'] (('$' :: (b ++ '$' :: '$' :: s)).drop
      (['$'] : List Char).length) = some (b, s) := by
    have := findClose_append '$' ['$'] b ('$' :: s) hb (by simp [leadsWith])
    simpa using this
  rw [ra_cons_pos h1 h2, ra_not_mem hs]

/-- The inline-dollar pass pairs the first two dollars of a text whose
only dollars are those two, however far apart they stand. -/
theorem d_resolve (K : Backend) {p b s : List Char}
    (hp : '$' ∉ p) (hb : '$' ∉ b) (hs : '$' ∉ s) :
    mathPass DelimStyle.inlineDollar K (p ++ '$' :: (b ++ '$' :: s)) =
      p ++ (mathRepl DelimStyle.inlineDollar K b ++ s) := by
  unfold mathPass
  simp only [openHead, openTail, closeOf]
  rw [ra_append _ hp]
  have h1 : leadsWith ('$' :: []) ('$' :: (b ++ '$' :: s)) = true := by
    simp [leadsWith]
  have h2 : findClose true ['$'] ((b ++ '$' :: s).drop ([] : List Char).length) =
      some (b, s) := by
    have := findClose_append '$' [] b s hb (by simp [leadsWith])
    simpa using this
  rw [ra_cons_pos h1 h2, ra_not_mem hs]

/-- The block-dollar pass does not fire on a text holding exactly two
non-adjacent dollars. -/
theorem dd_skip_pair (K : Backend) {p b s : List Char}
    (hp : '$' ∉ p) (hb : '$' ∉ b) (hbne : b ≠ []) (hs : '$' ∉ s) :
    mathPass DelimStyle.blockDollar K (p ++ '$' :: (b ++ '$' :: s)) =
      p ++ '$' :: (b ++ '$' :: s) := by
  unfold mathPass
  simp only [openHead, openTail, closeOf]
  rw [ra_append _ hp]
  obtain ⟨y, b', rfl⟩ : ∃ y b', b = y :: b' := by
    cases b with
    | nil => exact absurd rfl hbne
    | cons y b' => exact ⟨y, b', rfl⟩
  have hy : ('$' == y) = false := by
    have : '$' ≠ y := fun he => hb (by simp [← he])
    simpa using this
  have hlw1 : leadsWith ('$' :: ['$']) ('$' :: (y :: b' ++ '$' :: s)) = false := by
    simp [leadsWith, hy]
  rw [ra_cons_neg hlw1]
  have hb' : '$' ∉ (y :: b' : List Char) := hb
  rw [ra_append _ hb']
  have hlw2 : leadsWith ('$' :: ['$']) ('$' :: s) = false := by
    cases s with
    | nil => simp [leadsWith]
    | cons z s' =>
      have hz : ('$' == z) = false := by
        have : '$' ≠ z := fun he => hs (by simp [← he])
        simpa using this
      simp [leadsWith, hz]
  rw [ra_cons_neg hlw2, ra_not_mem hs]

/-- The item rule on two consecutive item lines: each keyword is
replaced by an empty list-item element and both line bodies stay outside
the elements. -/
theorem item_two (a b : List Char) (ha : '\\' ∉ a) (hb : '\\' ∉ b) :
    itemPass (("\\item ".data) ++ (a ++ '\n' :: (("\\item ".data) ++ b))) =
      ("<li></li>".data) ++ (a ++ '\n' :: (("<li></li>".data) ++ b)) := by
  unfold itemPass
  have h1 : leadsWith ('\\' :: ("item ".data))
      ('\\' :: (("item ".data) ++ (a ++ '\n' :: (("\\item ".data) ++ b)))) = true :=
    leadsWith_append_self ('\\' :: ("item ".data)) _
  have h2 : findClose false [] ((("item ".data) ++ (a ++ '\n' :: (("\\item ".data) ++ b))).drop
      ("item ".data).length) = some ([], a ++ '\n' :: (("\\item ".data) ++ b)) := by
    rw [drop_len_append, findClose_nil_cl]
  rw [show (("\\item ".data) ++ (a ++ '\n' :: (("\\item ".data) ++ b)) : List Char) =
      '\\' :: (("item ".data) ++ (a ++ '\n' :: (("\\item ".data) ++ b))) from rfl]
  rw [ra_cons_pos h1 h2, ra_append _ ha]
  have hlw : leadsWith ('\\' :: ("item ".data)) ('\n' :: (("\\item ".data) ++ b)) = false := by
    simp [leadsWith]
  rw [ra_cons_neg hlw]
  have h3 : leadsWith ('\\' :: ("item ".data)) ('\\' :: (("item ".data) ++ b)) = true :=
    leadsWith_append_self ('\\' :: ("item ".data)) _
  have h4 : findClose false [] ((("item ".data) ++ b).drop ("item ".data).length) =
      some ([], b) := by
    rw [drop_len_append, findClose_nil_cl]
  rw [show (("\\item ".data) ++ b : List Char) = '\\' :: (("item ".data) ++ b) from rfl]
  rw [ra_cons_pos h3 h4, ra_not_mem hb]

theorem not_mem_cons {c x : Char} {l : List Char} (h1 : c ≠ x) (h2 : c ∉ l) :
    c ∉ x :: l := by
  intro h
  rcases List.mem_cons.mp h with h' | h'
  · exact h1 h'
  · exact h2 h'

/-- The full math resolver on a text whose only delimiter characters
form one block-bracket region with typesettable content: the backend is
called on exactly the delimited substring and its output, wrapped as a
block, replaces the region; nothing else changes. -/
theorem rmie_bracket (K : Backend) (p b s out : List Char)
    (hp1 : '\\' ∉ p) (hp2 : '$' ∉ p) (hb1 : '\\' ∉ b)
    (hs1 : '\\' ∉ s) (hs2 : '$' ∉ s)
    (hK : K b true = some out) (ho1 : '\\' ∉ out) (ho2 : '$' ∉ out) :
    renderMathInElement K (p ++ '\\' :: '[' :: (b ++ '\\' :: ']' :: s)) =
      p ++ ((("<div class=\"math-block\">".data) ++ out ++ ("</div>".data)) ++ s) := by
  unfold renderMathInElement
  rw [bb_resolve K hp1 hb1 hs1]
  have hrepl : mathRepl DelimStyle.blockBracket K b =
      ("<div class=\"math-block\">".data) ++ out ++ ("</div>".data) := by
    simp [mathRepl, displayOf, hK]
  rw [hrepl]
  have hdol : '$' ∉ p ++ ((("<div class=\"math-block\">".data) ++ out ++ ("</div>".data)) ++ s) :=
    not_mem_app hp2 (not_mem_app (not_mem_app (not_mem_app (by decide) ho2) (by decide)) hs2)
  have hbsl : '\\' ∉ p ++ ((("<div class=\"math-block\">".data) ++ out ++ ("</div>".data)) ++ s) :=
    not_mem_app hp1 (not_mem_app (not_mem_app (not_mem_app (by decide) ho1) (by decide)) hs1)
  rw [mathPass_skip DelimStyle.blockDollar K hdol,
    mathPass_skip DelimStyle.inlineParen K hbsl,
    mathPass_skip DelimStyle.inlineDollar K hdol]

/-- A replace pass whose full opening pattern occurs nowhere in the
input is the identity on it. -/
theorem ra_no_occur {o : Char} {os : List Char} {nl : Bool} {cl : List Char}
    {repl : List Char → List Char} {l : List Char}
    (h : occursIn (o :: os) l = false) : replaceAll o os nl cl repl l = l := by
  induction l with
  | nil => rfl
  | cons c rest ih =>
    have h' := h
    simp only [occursIn, Bool.or_eq_false_iff] at h'
    rw [ra_cons_neg h'.1, ih h'.2]

/-- On a source free of structural commands and blank lines the whole
structural chain is the identity. -/
theorem structuralPass_id {l : List Char} (h : structFree l) : structuralPass l = l := by
  obtain ⟨h1, h2, h3, h4, h5, h6, h7, h8, h9⟩ := h
  unfold structuralPass
  rw [show sectionPass l = l from ra_no_occur h1]
  rw [show subsectionPass l = l from ra_no_occur h2]
  rw [show textbfPass l = l from ra_no_occur h3]
  rw [show textitPass l = l from ra_no_occur h4]
  rw [show underlinePass l = l from ra_no_occur h5]
  rw [show beginItemizePass l = l from ra_no_occur h6]
  rw [show endItemizePass l = l from ra_no_occur h7]
  rw [show itemPass l = l from ra_no_occur h8]
  rw [show newlinePass l = l from ra_no_occur h9]

theorem occursIn_cons_of {p l : List Char} (c : Char) (h : occursIn p l = true) :
    occursIn p (c :: l) = true := by
  simp [occursIn, h]

theorem occursIn_of_leadsWith {p l : List Char} (h : leadsWith p l = true) :
    occursIn p l = true := by
  cases l with
  | nil => exact h
  | cons c rest => simp [occursIn, h]

theorem occursIn_append_right (a : List Char) {p l : List Char}
    (h : occursIn p l = true) : occursIn p (a ++ l) = true := by
  induction a with
  | nil => exact h
  | cons x a' ih => exact occursIn_cons_of x ih

/-- Every region body of a decomposition, re-wrapped in its delimiters,
occurs verbatim in the reassembled text. -/
theorem regBodies_occur (o : Char) (os cl : List Char) :
    ∀ (cs : List Chunk) (b : List Char), b ∈ regBodies cs →
      occursIn ((o :: os) ++ (b ++ cl)) (reassembleChunks (o :: os) cl cs) = true := by
  intro cs
  induction cs with
  | nil => intro b hm; simp [regBodies] at hm
  | cons ch rest ih =>
    cases ch with
    | lit c =>
      intro b hm
      have hm' : b ∈ regBodies rest := by simpa [regBodies] using hm
      simp only [reassembleChunks]
      exact occursIn_cons_of c (ih b hm')
    | reg b' =>
      intro b hm
      simp only [regBodies, List.mem_cons] at hm
      simp only [reassembleChunks]
      rcases hm with rfl | hm'
      · have := occursIn_of_leadsWith
          (leadsWith_append_self ((o :: os) ++ (b ++ cl)) (reassembleChunks (o :: os) cl rest))
        simpa [List.append_assoc] using this
      · exact occursIn_append_right ((o :: os) ++ b' ++ cl) (ih b hm')

/-- The lazy scan for a two-character closing whose second character
differs from its first finds the explicit closing after the body as
soon as the body itself holds no occurrence of the closing. -/
theorem findClose_body {d e : Char} (hne : (e == d) = false) :
    ∀ (b s : List Char), occursIn [d, e] b = false →
      findClose true [d, e] (b ++ d :: e :: s) = some (b, s) := by
  intro b
  induction b with
  | nil =>
    intro s _
    have h1 : leadsWith [d, e] (d :: e :: s) = true := by simp [leadsWith]
    simp [findClose, h1, List.drop_succ_cons]
  | cons x b' ih =>
    intro s hocc
    simp only [occursIn, Bool.or_eq_false_iff] at hocc
    have hlw : leadsWith [d, e] (x :: (b' ++ d :: e :: s)) = false := by
      cases b' with
      | nil => simp [leadsWith, hne]
      | cons y b'' =>
        have he : leadsWith [d, e] (x :: y :: (b'' ++ d :: e :: s)) =
            leadsWith [d, e] (x :: y :: b'') := by simp [leadsWith]
        rw [List.cons_append, he, hocc.1]
    simp [findClose, hlw, ih s hocc.2]

/-- The block-bracket pass on a backslash-clean environment around one
region whose body holds no closing delimiter: the body may hold any
math commands; the pass substitutes exactly it. -/
theorem bb_resolve_gen (K : Backend) {p b s : List Char}
    (hp : '\\' ∉ p) (hbC : occursIn (['\\', ']'] : List Char) b = false) (hs : '\\' ∉ s) :
    mathPass DelimStyle.blockBracket K (p ++ '\\' :: '[' :: (b ++ '\\' :: ']' :: s)) =
      p ++ (mathRepl DelimStyle.blockBracket K b ++ s) := by
  unfold mathPass
  simp only [openHead, openTail, closeOf]
  rw [ra_append _ hp]
  have h1 : leadsWith ('\\' :: ['[']) ('\\' :: '[' :: (b ++ '\\' :: ']' :: s)) = true := by
    simp [leadsWith]
  have h2 : findClose true ['\\', ']'] (('[' :: (b ++ '\\' :: ']' :: s)).drop
      (['['] : List Char).length) = some (b, s) := by
    have := findClose_body (d := '\\') (e := ']') (by decide) b s hbC
    simpa using this
  rw [ra_cons_pos h1 h2, ra_not_mem hs]

/-- The inline-paren pass on a text whose only backslashes are one
delimited region: the region is substituted, the rest is untouched. -/
theorem paren_resolve (K : Backend) {p b s : List Char}
    (hp : '\\' ∉ p) (hb : '\\' ∉ b) (hs : '\\' ∉ s) :
    mathPass DelimStyle.inlineParen K (p ++ '\\' :: '(' :: (b ++ '\\' :: ')' :: s)) =
      p ++ (mathRepl DelimStyle.inlineParen K b ++ s) := by
  unfold mathPass
  simp only [openHead, openTail, closeOf]
  rw [ra_append _ hp]
  have h1 : leadsWith ('\\' :: ['(']) ('\\' :: '(' :: (b ++ '\\' :: ')' :: s)) = true := by
    simp [leadsWith]
  have h2 : findClose true ['\\', ')'] (('(' :: (b ++ '\\' :: ')' :: s)).drop
      (['('] : List Char).length) = some (b, s) := by
    have := findClose_append '\\' [')'] b (')' :: s) hb (by simp [leadsWith])
    simpa using this
  rw [ra_cons_pos h1 h2, ra_not_mem hs]

/-- The block-bracket pass does not fire on a paren-delimited region:
the bracket opening never matches a paren opening. -/
theorem bb_skip_paren (K : Backend) {p b s : List Char}
    (hp : '\\' ∉ p) (hb : '\\' ∉ b) (hs : '\\' ∉ s) :
    mathPass DelimStyle.blockBracket K (p ++ '\\' :: '(' :: (b ++ '\\' :: ')' :: s)) =
      p ++ '\\' :: '(' :: (b ++ '\\' :: ')' :: s) := by
  unfold mathPass
  simp only [openHead, openTail, closeOf]
  rw [ra_append _ hp]
  have hlw1 : leadsWith ('\\' :: ['[']) ('\\' :: '(' :: (b ++ '\\' :: ')' :: s)) = false := by
    simp [leadsWith]
  rw [ra_cons_neg hlw1]
  have hlw2 : leadsWith ('\\' :: ['[']) ('(' :: (b ++ '\\' :: ')' :: s)) = false := by
    simp [leadsWith]
  rw [ra_cons_neg hlw2, ra_append _ hb]
  have hlw3 : leadsWith ('\\' :: ['[']) ('\\' :: ')' :: s) = false := by
    simp [leadsWith]
  rw [ra_cons_neg hlw3]
  have hlw4 : leadsWith ('\\' :: ['[']) (')' :: s) = false := by
    simp [leadsWith]
  rw [ra_cons_neg hlw4, ra_not_mem hs]

/-! ## The claims -/

/-- Claim C1, counterexample.  The item rule's capture group stands at
the end of the pattern with nothing after it, so it always captures the
empty string: rendering the source backslash-item-space-X produces an
empty list-item element followed by the text X outside it, not a
list-item element holding X as the claim states. -/
theorem item_capture_cex :
    structuralPass ("\\item X".data) = ("<li></li>X".data) ∧
      ("<li></li>X".data) ≠ ("<li>X</li>".data) :=
  ⟨rfl, by decide⟩

/-- Claim C1 (amended): each occurrence of the item keyword with its
trailing space is replaced by an empty list-item element; the line's
text is left outside the element as literal text; consecutive item
lines still yield independent (empty) list-item elements.  Stated for
the item rule over two arbitrary backslash-free item lines, and for the
whole structural chain on a representative two-item source. -/
theorem item_empty_capture (a b : List Char) (ha : '\\' ∉ a) (hb : '\\' ∉ b) :
    itemPass (("\\item ".data) ++ (a ++ '\n' :: (("\\item ".data) ++ b))) =
      ("<li></li>".data) ++ (a ++ '\n' :: (("<li></li>".data) ++ b)) ∧
    structuralPass ("x \\item Alpha\n\\item Beta y".data) =
      ("x <li></li>Alpha\n<li></li>Beta y".data) :=
  ⟨item_two a b ha hb, rfl⟩

/-- Claim C1, witness for the amended statement at concrete item
lines. -/
theorem item_empty_capture_witness :
    itemPass (("\\item ".data) ++ (("Alpha".data) ++ '\n' ::
        (("\\item ".data) ++ ("Beta".data)))) =
      ("<li></li>".data) ++ (("Alpha".data) ++ '\n' ::
        (("<li></li>".data) ++ ("Beta".data))) :=
  (item_empty_capture ("Alpha".data) ("Beta".data) (by decide) (by decide)).1

/-- Claim C2, counterexample.  Structural substitution runs over the
whole text before any math pass, including inside math delimiters: for
the source backslash-bracket textbf-of-a backslash-bracket, the bold
command inside the region is rewritten first, so the backend receives
the strong element markup, not the verbatim source substring.  With the
identity backend the block payload shows exactly what was handed over,
the bracket pass's sole region body is that rewritten string, and that
string does not even occur in the original source. -/
theorem math_content_not_verbatim_cex :
    renderPipeline (fun b _ => some b) ("\\[ \\textbf\x7ba\x7d \\]".data) =
      ("<div class=\"math-block\"> <strong>a</strong> </div>".data) ∧
    regBodies (mathDecomp DelimStyle.blockBracket
        (structuralPass ("\\[ \\textbf\x7ba\x7d \\]".data))) =
      [(" <strong>a</strong> ".data)] ∧
    occursIn (" <strong>a</strong> ".data) ("\\[ \\textbf\x7ba\x7d \\]".data) = false :=
  ⟨rfl, rfl, rfl⟩

/-- Claim C2 (amended): for every delimiter pass, the content handed to
the backend is the verbatim substring between the delimiters of the
math resolver's input: the pass output is exactly its decomposition
with each region body substituted, and every region body, re-wrapped in
its delimiters, occurs verbatim in that input — no escaping or
rewriting is applied by the math stage, whatever commands the body
holds.  That input, however, is the source after structural-command and
blank-line substitution (the in-browser serialization round trip is
modelled as the identity), not the original source; when the source
contains no structural command and no blank line, structural
substitution is the identity and the backend receives the verbatim
original-source substring between the delimiters — TeX commands inside
the math body included. -/
theorem math_content_verbatim_handoff :
    (∀ (st : DelimStyle) (K : Backend) (l : List Char),
      mathPass st K l = renderChunks (mathRepl st K) (mathDecomp st l) ∧
      ∀ b ∈ regBodies (mathDecomp st l),
        occursIn ((openHead st :: openTail st) ++ (b ++ closeOf st)) l = true) ∧
    (∀ (K : Backend) (p b s out : List Char),
      structFree (p ++ '\\' :: '[' :: (b ++ '\\' :: ']' :: s)) →
      '\\' ∉ p → '$' ∉ p → occursIn (['\\', ']'] : List Char) b = false →
      '\\' ∉ s → '$' ∉ s →
      K b true = some out → '\\' ∉ out → '$' ∉ out →
      renderPipeline K (p ++ '\\' :: '[' :: (b ++ '\\' :: ']' :: s)) =
        p ++ ((("<div class=\"math-block\">".data) ++ out ++ ("</div>".data)) ++ s)) := by
  constructor
  · intro st K l
    constructor
    · exact ra_eq_chunks (openHead st) (openTail st) true (closeOf st) (mathRepl st K)
        l.length l le_rfl
    · intro b hm
      have hre := dec_reassemble (openHead st) (openTail st) true (closeOf st) l.length l le_rfl
      rw [← hre]
      exact regBodies_occur (openHead st) (openTail st) (closeOf st) (mathDecomp st l) b hm
  · intro K p b s out hSF hp1 hp2 hbC hs1 hs2 hK ho1 ho2
    unfold renderPipeline
    rw [structuralPass_id hSF]
    unfold renderMathInElement
    rw [bb_resolve_gen K hp1 hbC hs1]
    have hrepl : mathRepl DelimStyle.blockBracket K b =
        ("<div class=\"math-block\">".data) ++ out ++ ("</div>".data) := by
      simp [mathRepl, displayOf, hK]
    rw [hrepl]
    have hdol : '$' ∉ p ++ ((("<div class=\"math-block\">".data) ++ out ++
        ("</div>".data)) ++ s) :=
      not_mem_app hp2 (not_mem_app (not_mem_app (not_mem_app (by decide) ho2) (by decide)) hs2)
    have hbsl : '\\' ∉ p ++ ((("<div class=\"math-block\">".data) ++ out ++
        ("</div>".data)) ++ s) :=
      not_mem_app hp1 (not_mem_app (not_mem_app (not_mem_app (by decide) ho1) (by decide)) hs1)
    rw [mathPass_skip DelimStyle.blockDollar K hdol,
      mathPass_skip DelimStyle.inlineParen K hbsl,
      mathPass_skip DelimStyle.inlineDollar K hdol]

/-- Claim C2, witness for the amended statement: on a source with no
structural command and no blank line, the backend receives the verbatim
original-source substring between the delimiters even though the math
body is itself a TeX command (a backslash-alpha). -/
theorem math_content_verbatim_handoff_witness :
    renderPipeline (fun _ _ => some ("T".data))
        (("A ".data) ++ '\\' :: '[' :: (("\\alpha".data) ++ '\\' :: ']' :: (" B".data))) =
      ("A ".data) ++ ((("<div class=\"math-block\">".data) ++ ("T".data) ++
        ("</div>".data)) ++ (" B".data)) :=
  math_content_verbatim_handoff.2 (fun _ _ => some ("T".data))
    ("A ".data) ("\\alpha".data) (" B".data) ("T".data)
    (by exact ⟨by decide, by decide, by decide, by decide, by decide, by decide,
      by decide, by decide, by decide⟩)
    (by decide) (by decide) (by decide) (by decide) (by decide)
    rfl (by decide) (by decide)

/-- Claim C3.  In the part_000 variant the subsection replacement names
a second capture group while the pattern has only one, so the host
language inserts the dollar-two characters literally: the heading text
is the two characters dollar-two, not the captured argument, whatever
the backend.  The main variant's structural chain shows the intended
behaviour on the same input. -/
theorem subsection_dollar_two_bug :
    (∀ K : Backend, renderPipeline0 K ("\\subsection\x7bIntro\x7d".data) =
      ("<h2 class=\"latex-h2\">$2</h2>".data)) ∧
    structuralPass ("\\subsection\x7bIntro\x7d".data) =
      ("<h2 class=\"latex-h2\">Intro</h2>".data) :=
  ⟨fun _ => rfl, rfl⟩

/-- Claim C4: the passes run in the fixed order block-bracket,
block-dollar, inline-paren, inline-dollar (the order is the definition
of `renderMathInElement`, as in the source), and the input of four
dollars around x resolves as exactly one block region with content x —
never as two inline matches with a stray dollar — provided the backend
output carries no delimiter characters of its own. -/
theorem block_dollar_single_region (K : Backend) (out : List Char)
    (hK : K (['x'] : List Char) true = some out) (ho1 : '\\' ∉ out) (ho2 : '$' ∉ out) :
    renderMathInElement K ("$$x$$".data) =
      ("<div class=\"math-block\">".data) ++ out ++ ("</div>".data) := by
  unfold renderMathInElement
  rw [mathPass_skip DelimStyle.blockBracket K (by decide)]
  rw [show ("$$x$$".data : List Char) =
      [] ++ '$' :: '$' :: ((['x'] : List Char) ++ '$' :: '$' :: []) from rfl]
  rw [dd_resolve K (by decide) (by decide) (by decide)]
  have hrepl : mathRepl DelimStyle.blockDollar K (['x'] : List Char) =
      ("<div class=\"math-block\">".data) ++ out ++ ("</div>".data) := by
    simp [mathRepl, displayOf, hK]
  rw [hrepl]
  have hbsl : '\\' ∉ ([] : List Char) ++ ((("<div class=\"math-block\">".data) ++ out ++
      ("</div>".data)) ++ ([] : List Char)) :=
    not_mem_app (by decide)
      (not_mem_app (not_mem_app (not_mem_app (by decide) ho1) (by decide)) (by decide))
  have hdol : '$' ∉ ([] : List Char) ++ ((("<div class=\"math-block\">".data) ++ out ++
      ("</div>".data)) ++ ([] : List Char)) :=
    not_mem_app (by decide)
      (not_mem_app (not_mem_app (not_mem_app (by decide) ho2) (by decide)) (by decide))
  rw [mathPass_skip DelimStyle.inlineParen K hbsl,
    mathPass_skip DelimStyle.inlineDollar K hdol]
  simp

/-- Claim C4, witness at a concrete backend. -/
theorem block_dollar_single_region_witness :
    renderMathInElement (fun _ _ => some ("OUT".data)) ("$$x$$".data) =
      ("<div class=\"math-block\">".data) ++ ("OUT".data) ++ ("</div>".data) :=
  block_dollar_single_region (fun _ _ => some ("OUT".data)) ("OUT".data)
    rfl (by decide) (by decide)

/-- Claim C5: braced-argument matching is lazy, so bold-of-a, the text
mid, bold-of-b yield two strong elements with arguments a and b and the
literal text between them preserved outside both, for any backend
(the rendered text holds no math delimiters, so the math passes leave
it unchanged). -/
theorem textbf_non_greedy (K : Backend) :
    renderPipeline K ("\\textbf\x7ba\x7d mid \\textbf\x7bb\x7d".data) =
      ("<strong>a</strong> mid <strong>b</strong>".data) := rfl

/-- Claim C6: the scenario source section-of-Intro, blank line, block
math E equals m c squared renders as the first-level heading holding
exactly Intro, the paragraph break (the two break elements the code
emits for a blank line), and one math block whose payload is the
backend's output for the delimited content (the substring between the
delimiters, spaces included). -/
theorem section_break_math_scenario (K : Backend) (out : List Char)
    (hK : K (" E = mc^2 ".data) true = some out) (ho1 : '\\' ∉ out) (ho2 : '$' ∉ out) :
    renderPipeline K ("\\section\x7bIntro\x7d\n\n\\[ E = mc^2 \\]".data) =
      ("<h1 class=\"latex-h1\">Intro</h1><br/><br/>".data) ++
        (("<div class=\"math-block\">".data) ++ out ++ ("</div>".data)) := by
  unfold renderPipeline
  rw [show structuralPass ("\\section\x7bIntro\x7d\n\n\\[ E = mc^2 \\]".data) =
      ("<h1 class=\"latex-h1\">Intro</h1><br/><br/>".data) ++
        '\\' :: '[' :: ((" E = mc^2 ".data) ++ '\\' :: ']' :: []) from rfl]
  rw [rmie_bracket K _ _ _ out (by decide) (by decide) (by decide) (by decide) (by decide)
    hK ho1 ho2]
  simp

/-- Claim C6, witness at a concrete backend. -/
theorem section_break_math_scenario_witness :
    renderPipeline (fun _ _ => some ("EMC".data))
        ("\\section\x7bIntro\x7d\n\n\\[ E = mc^2 \\]".data) =
      ("<h1 class=\"latex-h1\">Intro</h1><br/><br/>".data) ++
        (("<div class=\"math-block\">".data) ++ ("EMC".data) ++ ("</div>".data)) :=
  section_break_math_scenario (fun _ _ => some ("EMC".data)) ("EMC".data)
    rfl (by decide) (by decide)

/-- Claim C7, counterexample.  A later pass does re-scan text an
earlier pass substituted: on the source holding two bracket regions
with a stray dollar after each, the bracket pass resolves x and y, and
the inline-dollar pass then pairs the two leftover dollars around the
already-typeset block for y — its sole region body literally contains
the substituted block element and is not even a substring of the
original source, and the final output nests the typeset block inside
the inline span. -/
theorem later_pass_reenters_cex :
    regBodies (mathDecomp DelimStyle.inlineDollar
      (mathPass DelimStyle.inlineParen (fun b _ => some ('(' :: (b ++ [')'])))
        (mathPass DelimStyle.blockDollar (fun b _ => some ('(' :: (b ++ [')'])))
          (mathPass DelimStyle.blockBracket (fun b _ => some ('(' :: (b ++ [')'])))
            ("\\[x\\] $ \\[y\\] $".data))))) =
      [(" <div class=\"math-block\">(y)</div> ".data)] ∧
    occursIn (" <div class=\"math-block\">(y)</div> ".data)
      ("\\[x\\] $ \\[y\\] $".data) = false ∧
    renderMathInElement (fun b _ => some ('(' :: (b ++ [')'])))
        ("\\[x\\] $ \\[y\\] $".data) =
      ("<div class=\"math-block\">(x)</div> <span class=\"math-inline\">( <div class=\"math-block\">(y)</div> )</span>".data) :=
  ⟨rfl, rfl, rfl⟩

/-- Claim C7 (amended): within any single delimiter pass the resolved
regions are pairwise disjoint spans of that pass's input — the pass's
decomposition reassembles, delimiters reinserted, to exactly its input,
and the pass output is the decomposition with each region body
replaced — but a later pass may resolve a region spanning an earlier
pass's substituted output, so regions of different passes need not map
to disjoint spans of the original source. -/
theorem per_pass_regions_partition (st : DelimStyle) (K : Backend) (l : List Char) :
    mathPass st K l = renderChunks (mathRepl st K) (mathDecomp st l) ∧
      reassembleChunks (openHead st :: openTail st) (closeOf st) (mathDecomp st l) = l :=
  ⟨ra_eq_chunks (openHead st) (openTail st) true (closeOf st) (mathRepl st K)
      l.length l le_rfl,
    dec_reassemble (openHead st) (openTail st) true (closeOf st) l.length l le_rfl⟩

/-- Claim C8, counterexample.  When the backend throws on a block-dollar
region, the catch branch returns the bare content: the delimiters are
dropped and no error marker of any kind is produced (the output around
the region holds no element at all), unlike the block-bracket pass,
whose catch does emit a red-styled span. -/
theorem math_failure_marker_cex :
    renderMathInElement (fun _ _ => none) ("before $$x$$ after".data) =
      ("before x after".data) ∧
    occursIn (['<'] : List Char) ("before x after".data) = false ∧
    renderMathInElement (fun _ _ => none) ("\\[x\\]".data) =
      ("<span style=\"color: red\">x</span>".data) :=
  ⟨rfl, rfl, rfl⟩

/-- Claim C8 (amended): when the backend throws on a region's content,
no exception escapes and the surroundings render exactly as otherwise,
but only the block-bracket pass substitutes an error-marker node (a
red-styled span wrapping the raw math text); the block-dollar,
inline-paren and inline-dollar passes each substitute the bare raw
content with no marker, dropping the delimiters. -/
theorem math_failure_behavior (K : Backend) (p b s : List Char)
    (hKt : K b true = none) (hKf : K b false = none)
    (hp1 : '\\' ∉ p) (hp2 : '$' ∉ p) (hb1 : '\\' ∉ b) (hb2 : '$' ∉ b) (hbne : b ≠ [])
    (hs1 : '\\' ∉ s) (hs2 : '$' ∉ s) :
    renderMathInElement K (p ++ '\\' :: '[' :: (b ++ '\\' :: ']' :: s)) =
      p ++ ((("<span style=\"color: red\">".data) ++ b ++ ("</span>".data)) ++ s) ∧
    renderMathInElement K (p ++ '$' :: '$' :: (b ++ '$' :: '$' :: s)) = p ++ (b ++ s) ∧
    renderMathInElement K (p ++ '\\' :: '(' :: (b ++ '\\' :: ')' :: s)) = p ++ (b ++ s) ∧
    renderMathInElement K (p ++ '$' :: (b ++ '$' :: s)) = p ++ (b ++ s) := by
  refine ⟨?_, ?_, ?_, ?_⟩
  · unfold renderMathInElement
    rw [bb_resolve K hp1 hb1 hs1]
    have hrepl : mathRepl DelimStyle.blockBracket K b =
        ("<span style=\"color: red\">".data) ++ b ++ ("</span>".data) := by
      simp [mathRepl, displayOf, hKt]
    rw [hrepl]
    have hdol : '$' ∉ p ++ ((("<span style=\"color: red\">".data) ++ b ++
        ("</span>".data)) ++ s) :=
      not_mem_app hp2 (not_mem_app (not_mem_app (not_mem_app (by decide) hb2) (by decide)) hs2)
    have hbsl : '\\' ∉ p ++ ((("<span style=\"color: red\">".data) ++ b ++
        ("</span>".data)) ++ s) :=
      not_mem_app hp1 (not_mem_app (not_mem_app (not_mem_app (by decide) hb1) (by decide)) hs1)
    rw [mathPass_skip DelimStyle.blockDollar K hdol,
      mathPass_skip DelimStyle.inlineParen K hbsl,
      mathPass_skip DelimStyle.inlineDollar K hdol]
  · unfold renderMathInElement
    have hbsl0 : '\\' ∉ p ++ '$' :: '$' :: (b ++ '$' :: '$' :: s) :=
      not_mem_app hp1 (not_mem_cons (by decide) (not_mem_cons (by decide)
        (not_mem_app hb1 (not_mem_cons (by decide) (not_mem_cons (by decide) hs1)))))
    rw [mathPass_skip DelimStyle.blockBracket K hbsl0]
    rw [dd_resolve K hp2 hb2 hs2]
    have hrepl : mathRepl DelimStyle.blockDollar K b = b := by
      simp [mathRepl, displayOf, hKt]
    rw [hrepl]
    have hbsl : '\\' ∉ p ++ (b ++ s) := not_mem_app hp1 (not_mem_app hb1 hs1)
    have hdol : '$' ∉ p ++ (b ++ s) := not_mem_app hp2 (not_mem_app hb2 hs2)
    rw [mathPass_skip DelimStyle.inlineParen K hbsl,
      mathPass_skip DelimStyle.inlineDollar K hdol]
  · unfold renderMathInElement
    rw [bb_skip_paren K hp1 hb1 hs1]
    have hdol0 : '$' ∉ p ++ '\\' :: '(' :: (b ++ '\\' :: ')' :: s) :=
      not_mem_app hp2 (not_mem_cons (by decide) (not_mem_cons (by decide)
        (not_mem_app hb2 (not_mem_cons (by decide) (not_mem_cons (by decide) hs2)))))
    rw [mathPass_skip DelimStyle.blockDollar K hdol0]
    rw [paren_resolve K hp1 hb1 hs1]
    have hrepl : mathRepl DelimStyle.inlineParen K b = b := by
      simp [mathRepl, displayOf, hKf]
    rw [hrepl]
    have hdol : '$' ∉ p ++ (b ++ s) := not_mem_app hp2 (not_mem_app hb2 hs2)
    rw [mathPass_skip DelimStyle.inlineDollar K hdol]
  · unfold renderMathInElement
    have hbsl0 : '\\' ∉ p ++ '$' :: (b ++ '$' :: s) :=
      not_mem_app hp1 (not_mem_cons (by decide)
        (not_mem_app hb1 (not_mem_cons (by decide) hs1)))
    rw [mathPass_skip DelimStyle.blockBracket K hbsl0]
    rw [dd_skip_pair K hp2 hb2 hbne hs2]
    rw [mathPass_skip DelimStyle.inlineParen K hbsl0]
    rw [d_resolve K hp2 hb2 hs2]
    have hrepl : mathRepl DelimStyle.inlineDollar K b = b := by
      simp [mathRepl, displayOf, hKf]
    rw [hrepl]

/-- Claim C8, witness for the amended statement at a concrete failing
backend and region. -/
theorem math_failure_behavior_witness :
    renderMathInElement (fun _ _ => none)
        (("A ".data) ++ '\\' :: '[' :: (("x".data) ++ '\\' :: ']' :: (" B".data))) =
      ("A ".data) ++ ((("<span style=\"color: red\">".data) ++ ("x".data) ++
        ("</span>".data)) ++ (" B".data)) ∧
    renderMathInElement (fun _ _ => none)
        (("A ".data) ++ '$' :: '$' :: (("x".data) ++ '$' :: '$' :: (" B".data))) =
      ("A ".data) ++ (("x".data) ++ (" B".data)) ∧
    renderMathInElement (fun _ _ => none)
        (("A ".data) ++ '\\' :: '(' :: (("x".data) ++ '\\' :: ')' :: (" B".data))) =
      ("A ".data) ++ (("x".data) ++ (" B".data)) ∧
    renderMathInElement (fun _ _ => none)
        (("A ".data) ++ '$' :: (("x".data) ++ '$' :: (" B".data))) =
      ("A ".data) ++ (("x".data) ++ (" B".data)) :=
  math_failure_behavior (fun _ _ => none) ("A ".data) ("x".data) (" B".data)
    rfl rfl (by decide) (by decide) (by decide) (by decide) (by decide)
    (by decide) (by decide)

/-- Claim C9: the pipeline is deterministic and stateless — the render
effect overwrites the display surface, so its result does not depend on
what the surface held before, and re-running it on its own output state
with the same source changes nothing. -/
theorem render_stateless_deterministic (K : Backend) (s d1 d2 : List Char) :
    applyRender K s d1 = applyRender K s d2 ∧
      applyRender K s (applyRender K s d1) = applyRender K s d1 := by
  constructor <;> simp only [applyRender]

/-- Claim C10: after the block passes, two lone dollars left in the
text are paired left to right into one inline region whose content is
everything between them, newlines and paragraph breaks included, so two
currency-style dollars on different lines become a single inline math
region spanning them. -/
theorem inline_dollar_spans_lines (K : Backend) (a b c out : List Char)
    (ha1 : '\\' ∉ a) (ha2 : '$' ∉ a) (hb1 : '\\' ∉ b) (hb2 : '$' ∉ b) (hbne : b ≠ [])
    (hc1 : '\\' ∉ c) (hc2 : '$' ∉ c) (hK : K b false = some out) :
    renderMathInElement K (a ++ '$' :: (b ++ '$' :: c)) =
      a ++ ((("<span class=\"math-inline\">".data) ++ out ++ ("</span>".data)) ++ c) := by
  unfold renderMathInElement
  have hbsl0 : '\\' ∉ a ++ '$' :: (b ++ '$' :: c) :=
    not_mem_app ha1 (not_mem_cons (by decide)
      (not_mem_app hb1 (not_mem_cons (by decide) hc1)))
  rw [mathPass_skip DelimStyle.blockBracket K hbsl0]
  rw [dd_skip_pair K ha2 hb2 hbne hc2]
  rw [mathPass_skip DelimStyle.inlineParen K hbsl0]
  rw [d_resolve K ha2 hb2 hc2]
  have hrepl : mathRepl DelimStyle.inlineDollar K b =
      ("<span class=\"math-inline\">".data) ++ out ++ ("</span>".data) := by
    simp [mathRepl, displayOf, hK]
  rw [hrepl]

/-- Claim C10, witness: two currency-like dollars on different lines
collapse into one inline region spanning the line break. -/
theorem inline_dollar_spans_lines_witness :
    renderMathInElement (fun _ _ => some ("FIVE".data))
        (("Pay ".data) ++ '$' :: (("5 now\nor ".data) ++ '$' :: ("6 later".data))) =
      ("Pay ".data) ++ ((("<span class=\"math-inline\">".data) ++ ("FIVE".data) ++
        ("</span>".data)) ++ ("6 later".data)) :=
  inline_dollar_spans_lines (fun _ _ => some ("FIVE".data))
    ("Pay ".data) ("5 now\nor ".data) ("6 later".data) ("FIVE".data)
    (by decide) (by decide) (by decide) (by decide) (by decide)
    (by decide) (by decide) rfl

end LatexVidec
